import Mathlib

set_option maxHeartbeats 1000000

namespace CleanWebArticle

/-! # String utilities

List-of-characters models of the Go standard-library string operations used by
`main.go`.  Lean `String` is a wrapper around `List Char`, so every function is
defined on `List Char` and lifted. -/

/-- Go `unicode.IsSpace`: the white-space code points recognised by
`strings.TrimSpace`. -/
def goIsSpace (c : Char) : Bool :=
  c.toNat = 0x09 || c.toNat = 0x0A || c.toNat = 0x0B || c.toNat = 0x0C ||
  c.toNat = 0x0D || c.toNat = 0x20 || c.toNat = 0x85 || c.toNat = 0xA0 ||
  c.toNat = 0x1680 || (0x2000 ≤ c.toNat && c.toNat ≤ 0x200A) ||
  c.toNat = 0x2028 || c.toNat = 0x2029 || c.toNat = 0x202F ||
  c.toNat = 0x205F || c.toNat = 0x3000

/-- Left part of Go `strings.TrimSpace`. -/
def trimLeftSpace (l : List Char) : List Char := l.dropWhile goIsSpace

/-- Right part of Go `strings.TrimSpace`. -/
def trimRightSpace (l : List Char) : List Char :=
  (l.reverse.dropWhile goIsSpace).reverse

/-- Go `strings.TrimSpace` on character lists. -/
def trimSpaceL (l : List Char) : List Char := trimRightSpace (trimLeftSpace l)

/-- Go `strings.TrimSpace`. -/
def trimSpace (s : String) : String := ⟨trimSpaceL s.data⟩

/-- Go `strings.ReplaceAll(s, "\r", "")` from `cleanText` (main.go:237). -/
def removeCR : List Char → List Char
  | [] => []
  | c :: rest => if c = '\r' then removeCR rest else c :: removeCR rest

/-- Go `strings.Contains(s, "\n\n\n")` — the loop guard in `cleanText`
(main.go:240). -/
def hasTripleNl : List Char → Bool
  | '\n' :: '\n' :: '\n' :: _ => true
  | _ :: rest => hasTripleNl rest
  | [] => false

/-- One pass of `strings.ReplaceAll(s, "\n\n\n", "\n\n")` (main.go:241):
leftmost, non-overlapping replacement. -/
def collapseOnce : List Char → List Char
  | '\n' :: '\n' :: '\n' :: rest => '\n' :: '\n' :: collapseOnce rest
  | c :: rest => c :: collapseOnce rest
  | [] => []

theorem collapseOnce_three (rest : List Char) :
    collapseOnce ('\n' :: '\n' :: '\n' :: rest) = '\n' :: '\n' :: collapseOnce rest := rfl

theorem collapseOnce_cons (c : Char) (rest : List Char)
    (hne : ∀ tail, c = '\n' → rest = '\n' :: '\n' :: tail → False) :
    collapseOnce (c :: rest) = c :: collapseOnce rest := by
  rw [collapseOnce.eq_def]
  split
  next x heq =>
    injection heq with h1 h2
    exact (hne x h1 h2).elim
  next c' rest' hne' heq =>
    injection heq with h1 h2
    subst h1
    subst h2
    rfl
  next heq => exact absurd heq (by simp)

theorem hasTripleNl_three (rest : List Char) :
    hasTripleNl ('\n' :: '\n' :: '\n' :: rest) = true := rfl

theorem hasTripleNl_cons (c : Char) (rest : List Char)
    (hne : ∀ tail, c = '\n' → rest = '\n' :: '\n' :: tail → False) :
    hasTripleNl (c :: rest) = hasTripleNl rest := by
  rw [hasTripleNl.eq_def]
  split
  next x heq =>
    injection heq with h1 h2
    exact (hne x h1 h2).elim
  next c' rest' hne' heq =>
    injection heq with h1 h2
    subst h1
    subst h2
    rfl
  next heq => exact absurd heq (by simp)

theorem collapseOnce_length_le (s : List Char) :
    (collapseOnce s).length ≤ s.length := by
  induction s using collapseOnce.induct with
  | case1 rest ih =>
      rw [collapseOnce_three]
      simp only [List.length_cons]
      omega
  | case2 c rest hne ih =>
      rw [collapseOnce_cons c rest hne]
      simp only [List.length_cons]
      omega
  | case3 => simp [collapseOnce]

theorem collapseOnce_length_lt (s : List Char) (h : hasTripleNl s = true) :
    (collapseOnce s).length < s.length := by
  induction s using collapseOnce.induct with
  | case1 rest ih =>
      rw [collapseOnce_three]
      have := collapseOnce_length_le rest
      simp only [List.length_cons]
      omega
  | case2 c rest hne ih =>
      rw [hasTripleNl_cons c rest hne] at h
      rw [collapseOnce_cons c rest hne]
      have := ih h
      simp only [List.length_cons]
      omega
  | case3 => simp [hasTripleNl] at h

/-- The collapse loop of `cleanText` (main.go:240-242): repeatedly replace
`"\n\n\n"` by `"\n\n"` until no triple newline remains. -/
def collapseLoop (s : List Char) : List Char :=
  if h : hasTripleNl s = true then collapseLoop (collapseOnce s) else s
termination_by s.length
decreasing_by exact collapseOnce_length_lt s h

theorem collapseLoop_eq (s : List Char) :
    collapseLoop s = if hasTripleNl s = true then collapseLoop (collapseOnce s) else s := by
  rw [collapseLoop]
  by_cases h : hasTripleNl s = true <;> simp [h]

/-- Model of `cleanText` (main.go:235-244) on character lists. -/
def cleanTextL (s : List Char) : List Char :=
  collapseLoop (trimSpaceL (removeCR s))

/-- Model of `cleanText` (main.go:235-244): strip `'\r'`, trim, collapse newline runs. -/
def cleanText (s : String) : String := ⟨cleanTextL s.data⟩

/-! ## Properties of the text normalizer -/

/-- The first character, when present, is not white space. -/
def headNS (l : List Char) : Prop := ∀ c, l.head? = some c → goIsSpace c = false

/-- The last character, when present, is not white space. -/
def lastNS (l : List Char) : Prop := ∀ c, l.getLast? = some c → goIsSpace c = false

theorem headNS_reverse (l : List Char) : headNS l.reverse ↔ lastNS l := by
  unfold headNS lastNS
  rw [List.head?_reverse]

theorem headNS_dropWhile (l : List Char) : headNS (l.dropWhile goIsSpace) := by
  induction l with
  | nil => intro c hc; simp at hc
  | cons a t ih =>
    rw [List.dropWhile_cons]
    split
    · exact ih
    · rename_i h
      intro c hc
      simp only [List.head?_cons, Option.some.injEq] at hc
      subst hc
      simpa using h

theorem dropWhile_eq_self_of_headNS {l : List Char} (h : headNS l) :
    l.dropWhile goIsSpace = l := by
  cases l with
  | nil => rfl
  | cons a t =>
    rw [List.dropWhile_cons, if_neg]
    simp [h a rfl]

theorem headNS_of_isPrefix {t m : List Char} (h : t <+: m) (hm : headNS m) : headNS t := by
  intro c hc
  obtain ⟨r, rfl⟩ := h
  apply hm
  cases t with
  | nil => simp at hc
  | cons a t' =>
    simp only [List.head?_cons, Option.some.injEq] at hc
    simp [hc]

theorem trimRightSpace_isPrefix (l : List Char) : trimRightSpace l <+: l := by
  unfold trimRightSpace
  rw [← List.reverse_suffix]
  simpa using List.dropWhile_suffix (l := l.reverse) goIsSpace

theorem headNS_trimSpaceL (l : List Char) : headNS (trimSpaceL l) :=
  headNS_of_isPrefix (trimRightSpace_isPrefix _) (headNS_dropWhile l)

theorem lastNS_trimSpaceL (l : List Char) : lastNS (trimSpaceL l) := by
  rw [← headNS_reverse]
  unfold trimSpaceL trimRightSpace
  rw [List.reverse_reverse]
  exact headNS_dropWhile _

theorem trimSpaceL_eq_self {l : List Char} (h1 : headNS l) (h2 : lastNS l) :
    trimSpaceL l = l := by
  unfold trimSpaceL trimLeftSpace trimRightSpace
  rw [dropWhile_eq_self_of_headNS h1,
    dropWhile_eq_self_of_headNS (by rw [headNS_reverse]; exact h2),
    List.reverse_reverse]

theorem mem_trimSpaceL {c : Char} {l : List Char} (h : c ∈ trimSpaceL l) : c ∈ l := by
  have h1 : c ∈ trimLeftSpace l := (trimRightSpace_isPrefix _).subset h
  exact (List.dropWhile_sublist goIsSpace).subset h1

theorem mem_removeCR {c : Char} {s : List Char} (h : c ∈ removeCR s) : c ∈ s := by
  induction s with
  | nil => simpa [removeCR] using h
  | cons a t ih =>
    rw [removeCR] at h
    split at h
    · exact List.mem_cons_of_mem _ (ih h)
    · rcases List.mem_cons.mp h with h | h
      · simp [h]
      · exact List.mem_cons_of_mem _ (ih h)

theorem not_mem_removeCR (s : List Char) : '\r' ∉ removeCR s := by
  induction s with
  | nil => simp [removeCR]
  | cons a t ih =>
    rw [removeCR]
    split
    · exact ih
    · rename_i h
      simp only [List.mem_cons]
      rintro (h1 | h2)
      · exact h h1.symm
      · exact ih h2

theorem removeCR_eq_self {s : List Char} (h : '\r' ∉ s) : removeCR s = s := by
  induction s with
  | nil => rfl
  | cons a t ih =>
    rw [removeCR, if_neg (fun ha => h (by simp [ha])),
      ih (fun hm => h (List.mem_cons_of_mem _ hm))]

theorem collapseOnce_ne_nil {s : List Char} (h : s ≠ []) : collapseOnce s ≠ [] := by
  induction s using collapseOnce.induct with
  | case1 rest ih => rw [collapseOnce_three]; simp
  | case2 c rest hne ih => rw [collapseOnce_cons c rest hne]; simp
  | case3 => exact absurd rfl h

theorem mem_collapseOnce {c : Char} {s : List Char} : c ∈ collapseOnce s → c ∈ s := by
  induction s using collapseOnce.induct with
  | case1 rest ih =>
    rw [collapseOnce_three]
    intro h
    simp only [List.mem_cons] at h ⊢
    rcases h with h | h | h
    · exact Or.inl h
    · exact Or.inl h
    · exact Or.inr (Or.inr (Or.inr (ih h)))
  | case2 c' rest hne ih =>
    rw [collapseOnce_cons c' rest hne]
    intro h
    rcases List.mem_cons.mp h with h | h
    · simp [h]
    · exact List.mem_cons_of_mem _ (ih h)
  | case3 => intro h; simpa [collapseOnce] using h

theorem headNS_collapseOnce {s : List Char} (h : headNS s) : headNS (collapseOnce s) := by
  induction s using collapseOnce.induct with
  | case1 rest ih =>
    have := h '\n' rfl
    simp [goIsSpace] at this
  | case2 c rest hne ih =>
    rw [collapseOnce_cons c rest hne]
    intro d hd
    simp only [List.head?_cons, Option.some.injEq] at hd
    subst hd
    exact h c rfl
  | case3 => intro d hd; simp [collapseOnce] at hd

theorem lastNS_collapseOnce {s : List Char} (h : lastNS s) : lastNS (collapseOnce s) := by
  induction s using collapseOnce.induct with
  | case1 rest ih =>
    rw [collapseOnce_three]
    cases rest with
    | nil =>
      have := h '\n' rfl
      simp [goIsSpace] at this
    | cons r rs =>
      have hrest : lastNS (r :: rs) := by
        intro d hd
        exact h d (by rw [List.getLast?_cons_cons, List.getLast?_cons_cons,
          List.getLast?_cons_cons]; exact hd)
      have hco := ih hrest
      intro d hd
      apply hco d
      obtain ⟨x, xs, hx⟩ : ∃ x xs, collapseOnce (r :: rs) = x :: xs := by
        cases hc : collapseOnce (r :: rs) with
        | nil => exact absurd hc (collapseOnce_ne_nil (by simp))
        | cons x xs => exact ⟨x, xs, rfl⟩
      rw [hx] at hd ⊢
      rw [List.getLast?_cons_cons, List.getLast?_cons_cons] at hd
      exact hd
  | case2 c rest hne ih =>
    rw [collapseOnce_cons c rest hne]
    cases rest with
    | nil =>
      intro d hd
      simp only [collapseOnce, List.getLast?_singleton, Option.some.injEq] at hd
      subst hd
      exact h c (by simp)
    | cons r rs =>
      have hrest : lastNS (r :: rs) := by
        intro d hd
        exact h d (by rw [List.getLast?_cons_cons]; exact hd)
      have hco := ih hrest
      intro d hd
      apply hco d
      obtain ⟨x, xs, hx⟩ : ∃ x xs, collapseOnce (r :: rs) = x :: xs := by
        cases hc : collapseOnce (r :: rs) with
        | nil => exact absurd hc (collapseOnce_ne_nil (by simp))
        | cons x xs => exact ⟨x, xs, rfl⟩
      rw [hx] at hd ⊢
      rw [List.getLast?_cons_cons] at hd
      exact hd
  | case3 => intro d hd; simp [collapseOnce] at hd

theorem collapseLoop_no3 (s : List Char) : hasTripleNl (collapseLoop s) = false := by
  rw [collapseLoop_eq]
  split
  · exact collapseLoop_no3 (collapseOnce s)
  · rename_i h
    simpa using h
termination_by s.length
decreasing_by exact collapseOnce_length_lt s (by assumption)

theorem mem_collapseLoop {c : Char} (s : List Char) (h : c ∈ collapseLoop s) : c ∈ s := by
  rw [collapseLoop_eq] at h
  by_cases ht : hasTripleNl s = true
  · rw [if_pos ht] at h
    exact mem_collapseOnce (mem_collapseLoop _ h)
  · rwa [if_neg ht] at h
termination_by s.length
decreasing_by exact collapseOnce_length_lt s ht

theorem headNS_collapseLoop (s : List Char) (h : headNS s) : headNS (collapseLoop s) := by
  rw [collapseLoop_eq]
  by_cases ht : hasTripleNl s = true
  · rw [if_pos ht]
    exact headNS_collapseLoop _ (headNS_collapseOnce h)
  · rwa [if_neg ht]
termination_by s.length
decreasing_by exact collapseOnce_length_lt s ht

theorem lastNS_collapseLoop (s : List Char) (h : lastNS s) : lastNS (collapseLoop s) := by
  rw [collapseLoop_eq]
  by_cases ht : hasTripleNl s = true
  · rw [if_pos ht]
    exact lastNS_collapseLoop _ (lastNS_collapseOnce h)
  · rwa [if_neg ht]
termination_by s.length
decreasing_by exact collapseOnce_length_lt s ht

theorem not_mem_cr_cleanTextL (s : List Char) : '\r' ∉ cleanTextL s := fun h =>
  not_mem_removeCR s (mem_trimSpaceL (mem_collapseLoop _ h))

theorem headNS_cleanTextL (s : List Char) : headNS (cleanTextL s) :=
  headNS_collapseLoop _ (headNS_trimSpaceL _)

theorem lastNS_cleanTextL (s : List Char) : lastNS (cleanTextL s) :=
  lastNS_collapseLoop _ (lastNS_trimSpaceL _)

theorem hasTripleNl_cleanTextL (s : List Char) : hasTripleNl (cleanTextL s) = false :=
  collapseLoop_no3 _

theorem collapseLoop_eq_self {s : List Char} (h : hasTripleNl s = false) :
    collapseLoop s = s := by
  rw [collapseLoop_eq, if_neg (by simp [h])]

/-- The function `cleanText` fixes any string that is already clean: no `'\r'`, trimmed,
no triple newline. -/
theorem cleanTextL_eq_self {s : List Char} (h1 : '\r' ∉ s) (h2 : trimSpaceL s = s)
    (h3 : hasTripleNl s = false) : cleanTextL s = s := by
  unfold cleanTextL
  rw [removeCR_eq_self h1, h2, collapseLoop_eq_self h3]

theorem cleanTextL_idem (s : List Char) : cleanTextL (cleanTextL s) = cleanTextL s := by
  have h2 : trimSpaceL (cleanTextL s) = cleanTextL s :=
    trimSpaceL_eq_self (headNS_cleanTextL s) (lastNS_cleanTextL s)
  exact cleanTextL_eq_self (not_mem_cr_cleanTextL s) h2 (hasTripleNl_cleanTextL s)

theorem contains_eq_false_of_not_mem {l : List Char} {c : Char} (h : c ∉ l) :
    l.contains c = false := by
  by_contra hb
  have : l.contains c = true := by
    cases hc : l.contains c
    · exact absurd hc hb
    · rfl
  obtain ⟨a, ha, hac⟩ := List.contains_iff_exists_mem_beq.mp this
  exact h (by rwa [show c = a from by simpa using hac])

/-! # HTML document model

The external collaborator (`goquery` over `net/html`) produces a tree of
nodes.  A `Doc` is the document node; its element/text descendants form the
tree.  Positions in the tree are paths of child indices, so distinct
occurrences of structurally equal nodes stay distinct, as they are for Go
pointers. -/

inductive Node where
  | elem (tag : String) (attrs : List (String × String)) (kids : List Node)
  | text (s : String)

/-- A parsed document: the children of the document node. -/
structure Doc where
  kids : List Node

/-- A position in the tree: the list of child indices from the document node. -/
abbrev Path := List Nat

mutual

/-- Pre-order (document-order) list of the positions of all elements of a
subtree; `[]` is the subtree's root. -/
def elemPathsN : Node → List Path
  | .text _ => []
  | .elem _ _ kids => [] :: elemPathsKids 0 kids

def elemPathsKids : Nat → List Node → List Path
  | _, [] => []
  | i, k :: ks => (elemPathsN k).map (i :: ·) ++ elemPathsKids (i + 1) ks

end

/-- Document-order list of the positions of all elements of the document. -/
def elemPaths (d : Doc) : List Path := elemPathsKids 0 d.kids

mutual

def nodeAtN : Node → Path → Option Node
  | n, [] => some n
  | .text _, _ :: _ => none
  | .elem _ _ kids, i :: p => nodeAtKids kids i p

def nodeAtKids : List Node → Nat → Path → Option Node
  | [], _, _ => none
  | k :: _, 0, p => nodeAtN k p
  | _ :: ks, i + 1, p => nodeAtKids ks i p

end

/-- The node at a position of the document, when the position is valid. -/
def nodeAt (d : Doc) : Path → Option Node
  | [] => none
  | i :: q => nodeAtKids d.kids i q

/-- Tag of the element at a position. -/
def tagAt (d : Doc) (p : Path) : Option String :=
  match nodeAt d p with
  | some (.elem t _ _) => some t
  | _ => none

/-- First attribute with the given name (`html.Node` attribute lookup). -/
def getAttr (attrs : List (String × String)) (name : String) : Option String :=
  (attrs.find? (fun x => x.1 == name)).map (·.2)

/-- Attribute of the element at a position. -/
def attrAt (d : Doc) (p : Path) (name : String) : Option String :=
  match nodeAt d p with
  | some (.elem _ attrs _) => getAttr attrs name
  | _ => none

mutual

/-- goquery `Selection.Text()` restricted to one node: the concatenation of
all descendant text nodes in document order. -/
def nodeText : Node → String
  | .text s => s
  | .elem _ _ kids => kidsText kids

def kidsText : List Node → String
  | [] => ""
  | k :: ks => nodeText k ++ kidsText ks

end

/-- Text of the node at a position (empty for an invalid position). -/
def textAt (d : Doc) (p : Path) : String :=
  match nodeAt d p with
  | some n => nodeText n
  | none => ""

/-! ## Selector engine (cascadia semantics for the selectors `main.go` uses) -/

inductive AttrPred where
  | equalsAttr (name val : String)
  | containsAttr (name val : String)
  | includesAttr (name val : String)

structure Selector where
  tag : Option String
  preds : List AttrPred

/-- Go `strings.Contains(hay, needle)` on character lists (cascadia `[x*=v]`
attribute matching uses it on the literal attribute value). -/
def containsSubstr : List Char → List Char → Bool
  | [], needle => needle.isEmpty
  | c :: rest, needle => needle.isPrefixOf (c :: rest) || containsSubstr rest needle

/-- CSS white space used by cascadia when splitting a class list. -/
def cssIsSpace (c : Char) : Bool :=
  c = ' ' || c = '\t' || c = '\r' || c = '\n' || c = '\x0c'

def fieldsAux : List Char → List Char → List (List Char)
  | [], acc => if acc = [] then [] else [acc.reverse]
  | c :: rest, acc =>
    if cssIsSpace c then
      if acc = [] then fieldsAux rest [] else acc.reverse :: fieldsAux rest []
    else fieldsAux rest (c :: acc)

/-- Split an attribute value on CSS white space (cascadia `[class~=]`/`.x`). -/
def splitFields (l : List Char) : List (List Char) := fieldsAux l []

def evalPred (attrs : List (String × String)) : AttrPred → Bool
  | .equalsAttr n v =>
    match getAttr attrs n with
    | some a => a == v
    | none => false
  | .containsAttr n v =>
    match getAttr attrs n with
    | some a => containsSubstr a.data v.data
    | none => false
  | .includesAttr n v =>
    match getAttr attrs n with
    | some a => (splitFields a.data).contains v.data
    | none => false

def matchesSel (sel : Selector) (n : Node) : Bool :=
  match n with
  | .text _ => false
  | .elem t attrs _ =>
    (match sel.tag with
     | some tg => t == tg
     | none => true) && sel.preds.all (evalPred attrs)

def matchAt (d : Doc) (sel : Selector) (p : Path) : Bool :=
  match nodeAt d p with
  | some n => matchesSel sel n
  | none => false

/-- goquery `doc.Find(sel)`: all matching elements, in document order. -/
def find (d : Doc) (sel : Selector) : List Path :=
  (elemPaths d).filter (matchAt d sel)

/-- goquery `Selection.Text()`: concatenated text of all nodes of a selection. -/
def selectionText (d : Doc) (ps : List Path) : String :=
  (ps.map (textAt d)).foldl (· ++ ·) ""

/-- goquery `sel.First().Text()`: text of the first matching node, `""` if none. -/
def firstText (d : Doc) (sel : Selector) : String :=
  match find d sel with
  | [] => ""
  | p :: _ => textAt d p

/-- goquery `sel.AttrOr(name, dflt)`: attribute of the first matching node. -/
def attrOr (d : Doc) (sel : Selector) (name dflt : String) : String :=
  match find d sel with
  | [] => dflt
  | p :: _ =>
    match attrAt d p name with
    | some v => v
    | none => dflt

/-! ## Extraction engine (`main.go:165-233`) -/

def selArticle : Selector := ⟨some "article", []⟩
def selMain : Selector := ⟨some "main", []⟩
def selDivIdContent : Selector := ⟨some "div", [.containsAttr "id" "content"]⟩
def selDivClassContent : Selector := ⟨some "div", [.containsAttr "class" "content"]⟩
def selPost : Selector := ⟨none, [.includesAttr "class" "post"]⟩
def selEntryContent : Selector := ⟨none, [.includesAttr "class" "entry-content"]⟩
def selArticleBody : Selector := ⟨none, [.includesAttr "class" "article-body"]⟩
def selPostBody : Selector := ⟨none, [.includesAttr "class" "post-body"]⟩
def selDiv : Selector := ⟨some "div", []⟩
def selOgTitle : Selector := ⟨some "meta", [.equalsAttr "property" "og:title"]⟩
def selTitle : Selector := ⟨some "title", []⟩
def selMetaAuthor : Selector := ⟨some "meta", [.equalsAttr "name" "author"]⟩
def selAuthorClass : Selector := ⟨none, [.includesAttr "class" "author"]⟩
def selByline : Selector := ⟨none, [.includesAttr "class" "byline"]⟩
def selRelAuthor : Selector := ⟨none, [.equalsAttr "rel" "author"]⟩

def isGatherTag (t : String) : Bool := t == "p" || t == "h1" || t == "h2" || t == "h3"

/-- The `p, h1, h2, h3` trimmed, non-blank texts collected by `gatherText`
(main.go:224-233), for the elements in scope, in document order. -/
def gatherParts (d : Doc) (inScope : Path → Bool) : List String :=
  (((elemPaths d).filter (fun p =>
      (match tagAt d p with
       | some t => isGatherTag t
       | none => false) && inScope p)).map
    (fun p => trimSpace (textAt d p))).filter (fun t => !(t == ""))

/-- Go `strings.Join(parts, sep)`. -/
def strJoin (sep : String) : List String → String
  | [] => ""
  | [x] => x
  | x :: y :: xs => x ++ sep ++ strJoin sep (y :: xs)

/-- Model of `gatherText(selection)` (main.go:224-233): descendants of any root of the
selection. `s.Find` matches strict descendants, deduplicated, in document
order. -/
def gatherText (d : Doc) (roots : List Path) : String :=
  strJoin "\n\n" (gatherParts d (fun p => roots.any (fun r => r.isPrefixOf p && !(r == p))))

/-- Model of `gatherText(doc.Selection)` (main.go:218): every element of the document is
a strict descendant of the document node. -/
def gatherTextDoc (d : Doc) : String :=
  strJoin "\n\n" (gatherParts d (fun _ => true))

/-- The fixed, ordered candidate list of `extractMainText` (main.go:191). -/
def candidateSels : List Selector :=
  [selArticle, selMain, selDivIdContent, selDivClassContent, selPost,
   selEntryContent, selArticleBody, selPostBody]

/-- Gathered texts of the candidates with at least one match (the loop skips a
selector with `selection.Length() == 0`), in candidate-list order. -/
def candTexts (d : Doc) : List String :=
  candidateSels.filterMap (fun sel =>
    match find d sel with
    | [] => none
    | ms => some (gatherText d ms))

/-- Go `len(strings.TrimSpace(text))`: Go `len` is the byte length. -/
def tlen (s : String) : Nat := (trimSpace s).utf8ByteSize

/-- One step of the best-candidate loop (main.go:201-204): strict `>`. -/
def bestStep (acc : String × Nat) (t : String) : String × Nat :=
  if tlen t > acc.2 then (t, tlen t) else acc

def bestOf (ts : List String) : String × Nat := ts.foldl bestStep ("", 0)

/-- The per-div fallback texts (main.go:208-214), in document order. -/
def divTexts (d : Doc) : List String :=
  (find d selDiv).map (fun p => gatherText d [p])

/-- Model of `extractMainText` (main.go:189-222) before the final `cleanText`. -/
def selectRaw (d : Doc) : String :=
  let r1 := bestOf (candTexts d)
  let r2 := if r1.2 = 0 then bestOf (divTexts d) else r1
  if r2.2 = 0 then gatherTextDoc d else r2.1

/-- Model of `extractMainText` (main.go:189-222). -/
def extractMainText (d : Doc) : String := cleanText (selectRaw d)

/-- Model of `extractTitle` (main.go:165-173). -/
def extractTitle (d : Doc) : String :=
  let t := trimSpace (attrOr d selOgTitle "content" "")
  if t ≠ "" then t
  else
    let t2 := trimSpace (selectionText d (find d selTitle))
    if t2 ≠ "" then t2 else ""

/-- The selector list tried by `extractAuthor` (main.go:180). -/
def authorSels : List Selector := [selAuthorClass, selByline, selRelAuthor]

def authorLoop (d : Doc) : List Selector → String
  | [] => ""
  | s :: rest =>
    let a := trimSpace (firstText d s)
    if a ≠ "" then a else authorLoop d rest

/-- Model of `extractAuthor` (main.go:175-187). -/
def extractAuthor (d : Doc) : String :=
  let a := trimSpace (attrOr d selMetaAuthor "content" "")
  if a ≠ "" then a else authorLoop d authorSels

/-! ## Orchestrator, auth and rate limiting (`main.go:17-163`) -/

structure Article where
  title : String
  author : String
  content : String
deriving DecidableEq

inductive ExtractError where
  | parseFailed
  | noContentDetected
deriving DecidableEq

/-- The post-parse phase of `fetchAndExtract` (main.go:149-162). -/
def extractFromDoc (d : Doc) : Except ExtractError Article :=
  let title := extractTitle d
  let author := extractAuthor d
  let content := extractMainText d
  if trimSpace content = "" then .error .noContentDetected
  else .ok ⟨title, author, content⟩

/-- Model of `fetchAndExtract` (main.go:117-163); the network fetch and HTML parse are
the external collaborator, passed as an oracle from URL to parsed document. -/
def fetchAndExtract (url : String) (fetchParse : String → Except Unit Doc) :
    Except ExtractError Article :=
  let u := if url.startsWith "http" then url else "http://" ++ url
  match fetchParse u with
  | .error _ => .error .parseFailed
  | .ok d => extractFromDoc d

/-- The `validKeys` map (main.go:25-27). -/
def validKeys : List String := ["demo-key-123"]

/-- Model of `checkKey` (main.go:86-93). -/
def checkKey (k : String) : Bool :=
  if k = "" then true else validKeys.contains k

/-- The `maxFreeRequestsPerHour` constant (main.go:32). -/
def maxFreeRequestsPerHour : Nat := 100

/-- The `limits` map (main.go:31): a missing key reads as `0` in Go. -/
abbrev RateState := String → Nat

/-- The key normalisation at the top of `checkRateLimit` (main.go:96-99). -/
def rateKey (k : String) : String := if k = "" then "anon" else k

/-- Model of `checkRateLimit` (main.go:95-108). -/
def checkRateLimit (k : String) (st : RateState) : Bool × RateState :=
  let key := rateKey k
  let c := st key
  if c ≥ maxFreeRequestsPerHour then (false, st)
  else (true, fun x => if x = key then c + 1 else st x)

inductive HandlerResult where
  | unauthorized
  | rateLimited
  | missingUrl
  | upstreamError
  | success (a : Article)
deriving DecidableEq

/-- Model of `extractHandler` (main.go:56-84): the auth / rate-limit / url-parameter
gate in front of `fetchAndExtract`, with the resulting rate state. -/
def extractHandler (headerKey queryKey urlParam : String) (st : RateState)
    (fetchParse : String → Except Unit Doc) : HandlerResult × RateState :=
  let apiKey := if headerKey = "" then queryKey else headerKey
  if checkKey apiKey = false then (.unauthorized, st)
  else
    let r := checkRateLimit apiKey st
    if r.1 = false then (.rateLimited, r.2)
    else if urlParam = "" then (.missingUrl, r.2)
    else
      match fetchAndExtract urlParam fetchParse with
      | .error _ => (.upstreamError, r.2)
      | .ok a => (.success a, r.2)

/-- A sequence of `checkRateLimit` calls, threading the `limits` state. -/
def runCalls : List String → RateState → RateState
  | [], st => st
  | k :: ks, st => runCalls ks (checkRateLimit k st).2

/-- How many calls of a sequence return `true` for a given effective key. -/
def trueCountFor (K : String) : List String → RateState → Nat
  | [], _ => 0
  | k :: ks, st =>
    (if (checkRateLimit k st).1 = true ∧ rateKey k = K then 1 else 0) +
      trueCountFor K ks (checkRateLimit k st).2

/-! ## The best-candidate loop is a first-wins maximum -/

/-- Largest trimmed length among a list of texts. -/
def maxTlen (ts : List String) : Nat := ts.foldr (fun t m => max (tlen t) m) 0

/-- The earliest text whose trimmed length attains the maximum. -/
def firstMaxText (ts : List String) : String :=
  (ts.find? (fun t => tlen t == maxTlen ts)).getD ""

theorem find?_congr {α : Type} {p q : α → Bool} (h : ∀ t, p t = q t) :
    ∀ l : List α, l.find? p = l.find? q := by
  intro l
  induction l with
  | nil => rfl
  | cons a l ih =>
    cases hq : q a with
    | true => rw [List.find?_cons_of_pos _ (by rw [h a]; exact hq),
        List.find?_cons_of_pos _ hq]
    | false => rw [List.find?_cons_of_neg _ (by simp [h a, hq]),
        List.find?_cons_of_neg _ (by simp [hq]), ih]

theorem getD_irrel {α : Type} {o : Option α} (h : o.isSome = true) (a b : α) :
    o.getD a = o.getD b := by
  cases o with
  | none => simp at h
  | some x => rfl

theorem maxTlen_cons (t : String) (ts : List String) :
    maxTlen (t :: ts) = max (tlen t) (maxTlen ts) := rfl

theorem maxTlen_attained (ts : List String) :
    maxTlen ts = 0 ∨ ∃ t ∈ ts, tlen t = maxTlen ts := by
  induction ts with
  | nil => exact Or.inl rfl
  | cons t ts ih =>
    rcases ih with h0 | ⟨u, hu, hmax⟩
    · exact Or.inr ⟨t, List.mem_cons_self _ _, by rw [maxTlen_cons, h0]; omega⟩
    · by_cases hc : maxTlen ts ≤ tlen t
      · exact Or.inr ⟨t, List.mem_cons_self _ _, by rw [maxTlen_cons]; omega⟩
      · exact Or.inr ⟨u, List.mem_cons_of_mem _ hu, by rw [maxTlen_cons, hmax]; omega⟩

theorem maxTlen_eq_zero_iff (ts : List String) :
    maxTlen ts = 0 ↔ ∀ t ∈ ts, tlen t = 0 := by
  induction ts with
  | nil => simp [maxTlen]
  | cons t ts ih =>
    rw [maxTlen_cons]
    constructor
    · intro h u hu
      rcases List.mem_cons.mp hu with rfl | hu
      · omega
      · exact ih.mp (by omega) u hu
    · intro h
      have h1 := h t (List.mem_cons_self _ _)
      have h2 : maxTlen ts = 0 := ih.mpr (fun u hu => h u (List.mem_cons_of_mem _ hu))
      omega

theorem foldl_bestStep (ts : List String) :
    ∀ b : String, ∀ n : Nat,
      ts.foldl bestStep (b, n) =
        if maxTlen ts ≤ n then (b, n)
        else ((ts.find? (fun t => decide (n < tlen t) && (tlen t == maxTlen ts))).getD b,
          maxTlen ts) := by
  induction ts with
  | nil =>
    intro b n
    simp [maxTlen]
  | cons t ts ih =>
    intro b n
    rw [List.foldl_cons, maxTlen_cons]
    by_cases h1 : n < tlen t
    · have hstep : bestStep (b, n) t = (t, tlen t) := by
        unfold bestStep
        rw [if_pos h1]
      rw [hstep, ih t (tlen t)]
      by_cases h2 : maxTlen ts ≤ tlen t
      · rw [if_pos h2, if_neg (show ¬ max (tlen t) (maxTlen ts) ≤ n by omega)]
        have hpt : (fun u => decide (n < tlen u) &&
            (tlen u == max (tlen t) (maxTlen ts))) t = true := by
          simp only [Bool.and_eq_true, decide_eq_true_eq, beq_iff_eq]
          omega
        rw [@List.find?_cons_of_pos _
          (fun u => decide (n < tlen u) && (tlen u == max (tlen t) (maxTlen ts))) t ts hpt]
        simp only [Option.getD_some]
        have hm : max (tlen t) (maxTlen ts) = tlen t := by omega
        rw [hm]
      · have h2' : tlen t < maxTlen ts := by omega
        rw [if_neg h2, if_neg (show ¬ max (tlen t) (maxTlen ts) ≤ n by omega)]
        have hm : max (tlen t) (maxTlen ts) = maxTlen ts := by omega
        rw [hm]
        have hpt : ¬ ((fun u => decide (n < tlen u) && (tlen u == maxTlen ts)) t = true) := by
          simp only [Bool.and_eq_true, decide_eq_true_eq, beq_iff_eq]
          rintro ⟨-, hb⟩
          omega
        rw [@List.find?_cons_of_neg _
          (fun u => decide (n < tlen u) && (tlen u == maxTlen ts)) t ts hpt]
        have hfc : ts.find? (fun u => decide (tlen t < tlen u) && (tlen u == maxTlen ts)) =
            ts.find? (fun u => decide (n < tlen u) && (tlen u == maxTlen ts)) := by
          refine find?_congr (fun u => ?_) ts
          by_cases hu : tlen u = maxTlen ts
          · rw [hu]
            simp only [beq_self_eq_true, Bool.and_true]
            rw [decide_eq_true (show tlen t < maxTlen ts by omega),
              decide_eq_true (show n < maxTlen ts by omega)]
          · rw [beq_eq_false_iff_ne.mpr hu, Bool.and_false, Bool.and_false]
        have hattain : (ts.find? (fun u => decide (n < tlen u) &&
            (tlen u == maxTlen ts))).isSome = true := by
          rcases maxTlen_attained ts with h0 | ⟨u, hu, hmu⟩
          · omega
          · refine List.find?_isSome.mpr ⟨u, hu, ?_⟩
            simp only [Bool.and_eq_true, decide_eq_true_eq, beq_iff_eq]
            omega
        rw [hfc, getD_irrel hattain t b]
    · have hstep : bestStep (b, n) t = (b, n) := by
        unfold bestStep
        rw [if_neg h1]
      rw [hstep, ih b n]
      by_cases h2 : maxTlen ts ≤ n
      · rw [if_pos h2, if_pos (show max (tlen t) (maxTlen ts) ≤ n by omega)]
      · rw [if_neg h2, if_neg (show ¬ max (tlen t) (maxTlen ts) ≤ n by omega)]
        have hm : max (tlen t) (maxTlen ts) = maxTlen ts := by omega
        rw [hm]
        have hpt : ¬ ((fun u => decide (n < tlen u) && (tlen u == maxTlen ts)) t = true) := by
          simp only [Bool.and_eq_true, decide_eq_true_eq, beq_iff_eq]
          rintro ⟨ha, -⟩
          omega
        rw [@List.find?_cons_of_neg _
          (fun u => decide (n < tlen u) && (tlen u == maxTlen ts)) t ts hpt]

theorem bestOf_eq (ts : List String) :
    bestOf ts = if maxTlen ts = 0 then ("", 0) else (firstMaxText ts, maxTlen ts) := by
  unfold bestOf
  rw [foldl_bestStep ts "" 0]
  by_cases h : maxTlen ts = 0
  · rw [if_pos (by omega), if_pos h]
  · rw [if_neg (by omega), if_neg h]
    unfold firstMaxText
    have hc : ∀ t, (decide (0 < tlen t) && (tlen t == maxTlen ts)) = (tlen t == maxTlen ts) := by
      intro t
      by_cases ht : tlen t = maxTlen ts
      · rw [ht, decide_eq_true (show 0 < maxTlen ts by omega), Bool.true_and]
      · rw [beq_eq_false_iff_ne.mpr ht, Bool.and_false]
    rw [find?_congr hc ts]

theorem all_tlen_zero_iff (ts : List String) :
    (ts.all fun t => tlen t == 0) = true ↔ maxTlen ts = 0 := by
  rw [List.all_eq_true, maxTlen_eq_zero_iff]
  constructor
  · intro h t ht
    simpa using h t ht
  · intro h t ht
    simpa using h t ht

/-- The body `extractMainText` selects, computed as a first-wins maximum over the candidate
texts, then over the per-div texts, then the whole document. -/
theorem selectRaw_eq (d : Doc) :
    selectRaw d =
      if (candTexts d).all (fun t => tlen t == 0) then
        (if (divTexts d).all (fun t => tlen t == 0) then gatherTextDoc d
         else firstMaxText (divTexts d))
      else firstMaxText (candTexts d) := by
  have hsel : selectRaw d =
      (if (if (bestOf (candTexts d)).2 = 0 then bestOf (divTexts d)
            else bestOf (candTexts d)).2 = 0 then gatherTextDoc d
       else (if (bestOf (candTexts d)).2 = 0 then bestOf (divTexts d)
            else bestOf (candTexts d)).1) := rfl
  rw [hsel, bestOf_eq (candTexts d), bestOf_eq (divTexts d)]
  by_cases hc : maxTlen (candTexts d) = 0 <;> by_cases hd : maxTlen (divTexts d) = 0 <;>
    simp only [hc, hd, if_true, if_false, reduceIte]
  · rw [if_pos ((all_tlen_zero_iff _).mpr hc), if_pos ((all_tlen_zero_iff _).mpr hd)]
  · rw [if_pos ((all_tlen_zero_iff _).mpr hc),
      if_neg (fun hall => hd ((all_tlen_zero_iff _).mp hall))]
  · rw [if_neg (fun hall => hc ((all_tlen_zero_iff _).mp hall))]
  · rw [if_neg (fun hall => hc ((all_tlen_zero_iff _).mp hall))]

/-! ## Completeness of the element-path enumeration -/

/-- Whether the path points at an element of the subtree. -/
def isElemN (n : Node) (q : Path) : Bool :=
  match nodeAtN n q with
  | some (.elem _ _ _) => true
  | _ => false

/-- Whether the path points at an element below one of the children. -/
def isElemKids (ks : List Node) (i : Nat) (q : Path) : Bool :=
  match nodeAtKids ks i q with
  | some (.elem _ _ _) => true
  | _ => false

mutual

theorem mem_elemPathsN : ∀ (n : Node) (q : Path), q ∈ elemPathsN n ↔ isElemN n q = true
  | .text s, q => by
    cases q <;> simp [elemPathsN, isElemN, nodeAtN]
  | .elem t a kids, q => by
    cases q with
    | nil => simp [elemPathsN, isElemN, nodeAtN]
    | cons i q' =>
      have h1 : isElemN (.elem t a kids) (i :: q') = isElemKids kids i q' := rfl
      rw [h1]
      have h2 : (i :: q') ∈ elemPathsN (.elem t a kids) ↔
          (i :: q') ∈ elemPathsKids 0 kids := by
        rw [show elemPathsN (.elem t a kids) = [] :: elemPathsKids 0 kids from rfl]
        simp
      rw [h2, mem_elemPathsKids kids 0 (i :: q')]
      constructor
      · rintro ⟨j, q, hjq, hel⟩
        injection hjq with hj hq
        subst hq
        simpa [hj] using hel
      · intro hel
        exact ⟨i, q', by simp, hel⟩

theorem mem_elemPathsKids : ∀ (ks : List Node) (i : Nat) (p : Path),
    p ∈ elemPathsKids i ks ↔ ∃ j q, p = (i + j) :: q ∧ isElemKids ks j q = true
  | [], i, p => by
    simp [elemPathsKids, isElemKids, nodeAtKids]
  | k :: ks, i, p => by
    rw [show elemPathsKids i (k :: ks) =
      (elemPathsN k).map (i :: ·) ++ elemPathsKids (i + 1) ks from rfl]
    rw [List.mem_append, List.mem_map]
    constructor
    · rintro (⟨q, hq, rfl⟩ | hp)
      · exact ⟨0, q, by simp, by
          rw [show isElemKids (k :: ks) 0 q = isElemN k q from rfl]
          exact (mem_elemPathsN k q).mp hq⟩
      · obtain ⟨j, q, rfl, hj⟩ := (mem_elemPathsKids ks (i + 1) p).mp hp
        refine ⟨j + 1, q, ?_, ?_⟩
        · rw [show i + (j + 1) = i + 1 + j from by omega]
        · rw [show isElemKids (k :: ks) (j + 1) q = isElemKids ks j q from rfl]
          exact hj
    · rintro ⟨j, q, rfl, hj⟩
      cases j with
      | zero =>
        left
        refine ⟨q, (mem_elemPathsN k q).mpr ?_, by simp⟩
        rw [show isElemN k q = isElemKids (k :: ks) 0 q from rfl]
        exact hj
      | succ j' =>
        right
        apply (mem_elemPathsKids ks (i + 1) ((i + (j' + 1)) :: q)).mpr
        refine ⟨j', q, ?_, ?_⟩
        · rw [show i + (j' + 1) = i + 1 + j' from by omega]
        · rw [show isElemKids ks j' q = isElemKids (k :: ks) (j' + 1) q from rfl]
          exact hj

end

/-- A path is in the element enumeration exactly when it points at an element. -/
theorem mem_elemPaths_iff (d : Doc) (p : Path) :
    p ∈ elemPaths d ↔ (tagAt d p).isSome = true := by
  cases p with
  | nil =>
    unfold elemPaths
    rw [mem_elemPathsKids d.kids 0 []]
    simp [tagAt, nodeAt]
  | cons i q =>
    unfold elemPaths
    rw [mem_elemPathsKids d.kids 0 (i :: q)]
    have h1 : tagAt d (i :: q) = (match nodeAtKids d.kids i q with
        | some (.elem t _ _) => some t
        | _ => none) := rfl
    constructor
    · rintro ⟨j, q', hjq, hel⟩
      injection hjq with hj hq
      subst hq
      rw [h1]
      unfold isElemKids at hel
      rw [show (0 : Nat) + j = j from by omega] at hj
      subst hj
      revert hel
      cases nodeAtKids d.kids i q with
      | none => simp
      | some n => cases n <;> simp
    · intro hs
      refine ⟨i, q, by simp, ?_⟩
      unfold isElemKids
      rw [h1] at hs
      revert hs
      cases nodeAtKids d.kids i q with
      | none => simp
      | some n => cases n <;> simp

/-- Characterisation of `find` for a `tag[attr*='v']` selector. -/
theorem mem_find_tagContains (d : Doc) (p : Path) (tg nm v : String) :
    p ∈ find d ⟨some tg, [.containsAttr nm v]⟩ ↔
      tagAt d p = some tg ∧
        ∃ a, attrAt d p nm = some a ∧ containsSubstr a.data v.data = true := by
  unfold find
  rw [List.mem_filter, mem_elemPaths_iff]
  unfold matchAt tagAt attrAt
  cases hn : nodeAt d p with
  | none => simp
  | some n =>
    cases n with
    | text s => simp [matchesSel]
    | elem t attrs kids =>
      simp only [matchesSel, Option.isSome_some, true_and, List.all_cons, List.all_nil,
        Bool.and_true, Bool.and_eq_true, beq_iff_eq, Option.some.injEq]
      unfold evalPred
      cases ha : getAttr attrs nm with
      | none => simp [ha]
      | some a => simp [ha]

/-! ## Spec-side definitions used to state the claims -/

/-- First-wins selection of a non-blank string from a priority list. -/
def firstNonBlank : List String → String
  | [] => ""
  | s :: rest => if s ≠ "" then s else firstNonBlank rest

/-- Any-tag variant of the third candidate tier, following the spec's words
"any element whose `id` attribute contains substring `content`" (§4.3 step 1),
for refinement comparison with the code's `div[id*='content']`. -/
def selAnyIdContent : Selector := ⟨none, [.containsAttr "id" "content"]⟩

/-- Any-tag variant of the fourth candidate tier, following the spec's words
"any element whose `class` attribute contains substring `content`". -/
def selAnyClassContent : Selector := ⟨none, [.containsAttr "class" "content"]⟩

/-- The candidate list as the spec describes it (§4.3 step 1), with the
any-tag third and fourth tiers; used to compare against `candidateSels`. -/
def candidateSelsSpec : List Selector :=
  [selArticle, selMain, selAnyIdContent, selAnyClassContent, selPost,
   selEntryContent, selArticleBody, selPostBody]

def candTextsSpec (d : Doc) : List String :=
  candidateSelsSpec.filterMap (fun sel =>
    match find d sel with
    | [] => none
    | ms => some (gatherText d ms))

def selectRawSpec (d : Doc) : String :=
  let r1 := bestOf (candTextsSpec d)
  let r2 := if r1.2 = 0 then bestOf (divTexts d) else r1
  if r2.2 = 0 then gatherTextDoc d else r2.1

/-- The spec's `selectBody` followed by normalisation: identical to
`extractMainText` except for the any-tag third and fourth candidate tiers. -/
def extractMainTextSpec (d : Doc) : String := cleanText (selectRawSpec d)

/-! ## Concrete documents (trees as the `net/html` collaborator parses them) -/

/-- Parse tree of
`<html><head><meta property="og:title" content="Hi"></head><body><article><p>Hello world.</p><p>Second paragraph.</p></article></body></html>`. -/
def docC4 : Doc :=
  ⟨[.elem "html" []
      [.elem "head" [] [.elem "meta" [("property", "og:title"), ("content", "Hi")] []],
       .elem "body" []
         [.elem "article" []
            [.elem "p" [] [.text "Hello world."],
             .elem "p" [] [.text "Second paragraph."]]]]]⟩

/-- A document whose longest prose lives in a `<section id="content">`: the
spec's any-tag tier would pick the section, the code's `div`-only tier cannot
match it, so the shorter `<article>` wins. -/
def docC2cx : Doc :=
  ⟨[.elem "html" []
      [.elem "head" [] [],
       .elem "body" []
         [.elem "section" [("id", "content")]
            [.elem "p" [] [.text "This section is the real article body."]],
          .elem "article" [] [.elem "p" [] [.text "B."]]]]]⟩

/-- A `<div class="noncontent">` holding the only paragraph text. -/
def docC8ex : Doc :=
  ⟨[.elem "html" []
      [.elem "head" [] [],
       .elem "body" []
         [.elem "div" [("class", "noncontent")]
            [.elem "p" [] [.text "Some text here."]]]]]⟩

/-- A document with two `<title>` elements and no `og:title` meta. -/
def docC5cx : Doc :=
  ⟨[.elem "html" []
      [.elem "head" []
         [.elem "title" [] [.text "A"], .elem "title" [] [.text "B"]],
       .elem "body" [] []]]⟩

/-- A document carrying both an `og:title` meta and a different `<title>`. -/
def docC5b : Doc :=
  ⟨[.elem "html" []
      [.elem "head" []
         [.elem "meta" [("property", "og:title"), ("content", "X")] [],
          .elem "title" [] [.text "Y"]],
       .elem "body" [] []]]⟩

/-- No author meta, one element of class `byline` containing "Jane Doe". -/
def docC6jane : Doc :=
  ⟨[.elem "html" []
      [.elem "head" [] [],
       .elem "body" []
         [.elem "span" [("class", "byline")] [.text "Jane Doe"],
          .elem "p" [] [.text "body"]]]]⟩

/-- Neither an author meta nor any of the three author selectors. -/
def docC6none : Doc :=
  ⟨[.elem "html" []
      [.elem "head" [] [],
       .elem "body" [] [.elem "p" [] [.text "hi"]]]]⟩

/-- A small article page used to witness a successful extraction. -/
def docC1w : Doc :=
  ⟨[.elem "html" []
      [.elem "head" [] [.elem "title" [] [.text "T"]],
       .elem "body" []
         [.elem "article" [] [.elem "p" [] [.text "Body text."]]]]]⟩

/-! ## Remaining helper lemmas -/

theorem not_mem_of_contains_eq_false {l : List Char} {c : Char}
    (h : l.contains c = false) : c ∉ l := by
  intro hm
  have : l.contains c = true :=
    List.contains_iff_exists_mem_beq.mpr ⟨c, hm, by simp⟩
  rw [h] at this
  exact absurd this (by simp)

/-- The function `cleanText` fixes a string that is already clean; lets concrete
extractions be evaluated in spite of the fixed-point loop. -/
theorem cleanText_eq_self {s : String} (h1 : s.data.contains '\r' = false)
    (h2 : trimSpaceL s.data = s.data) (h3 : hasTripleNl s.data = false) :
    cleanText s = s := by
  unfold cleanText
  rw [cleanTextL_eq_self (not_mem_of_contains_eq_false h1) h2 h3]

/-- The loop guard of `cleanText` agrees with the `strings.Contains` model:
it detects exactly a `"\n\n\n"` substring. -/
theorem hasTripleNl_eq_containsSubstr (s : List Char) :
    hasTripleNl s = containsSubstr s ['\n', '\n', '\n'] := by
  induction s using hasTripleNl.induct with
  | case1 rest =>
    rw [hasTripleNl_three]
    have hp : (['\n', '\n', '\n'] : List Char).isPrefixOf ('\n' :: '\n' :: '\n' :: rest) =
        true := List.isPrefixOf_iff_prefix.mpr ⟨rest, rfl⟩
    rw [show containsSubstr ('\n' :: '\n' :: '\n' :: rest) ['\n', '\n', '\n'] =
      ((['\n', '\n', '\n'] : List Char).isPrefixOf ('\n' :: '\n' :: '\n' :: rest) ||
        containsSubstr ('\n' :: '\n' :: rest) ['\n', '\n', '\n']) from rfl, hp,
      Bool.true_or]
  | case2 c rest hne ih =>
    rw [hasTripleNl_cons c rest hne, ih]
    have hp : (['\n', '\n', '\n'] : List Char).isPrefixOf (c :: rest) = false := by
      cases hcp : (['\n', '\n', '\n'] : List Char).isPrefixOf (c :: rest) with
      | false => rfl
      | true =>
        obtain ⟨tail, htail⟩ := List.isPrefixOf_iff_prefix.mp hcp
        injection htail with h1 h2
        exact (hne tail h1.symm (by rw [← h2]; rfl)).elim
    rw [show containsSubstr (c :: rest) ['\n', '\n', '\n'] =
      ((['\n', '\n', '\n'] : List Char).isPrefixOf (c :: rest) ||
        containsSubstr rest ['\n', '\n', '\n']) from rfl, hp, Bool.false_or]
  | case3 => rfl

theorem extractFromDoc_eq (d : Doc) :
    extractFromDoc d =
      if trimSpace (extractMainText d) = "" then .error .noContentDetected
      else .ok ⟨extractTitle d, extractAuthor d, extractMainText d⟩ := rfl

theorem checkRateLimit_false_iff (k : String) (st : RateState) :
    (checkRateLimit k st).1 = false ↔ 100 ≤ st (rateKey k) := by
  unfold checkRateLimit maxFreeRequestsPerHour
  by_cases h : 100 ≤ st (rateKey k) <;> simp [h]

theorem extractHandler_anon (url : String) (st : RateState)
    (f : String → Except Unit Doc) :
    extractHandler "" "" url st f =
      (if (checkRateLimit "" st).1 = false then
        (HandlerResult.rateLimited, (checkRateLimit "" st).2)
       else if url = "" then (.missingUrl, (checkRateLimit "" st).2)
       else match fetchAndExtract url f with
         | .error _ => (.upstreamError, (checkRateLimit "" st).2)
         | .ok a => (.success a, (checkRateLimit "" st).2)) := rfl

/-! ## Claims -/

/-- C7: `cleanText` strips every carriage return, trims the ends, collapses
every run of three or more newlines to two (to a fixed point), is idempotent,
and an interior run of four newlines comes out as exactly two. -/
theorem spec_C7 (s : String) :
    cleanText (cleanText s) = cleanText s ∧
    (cleanText s).data.contains '\r' = false ∧
    trimSpace (cleanText s) = cleanText s ∧
    containsSubstr (cleanText s).data ['\n', '\n', '\n'] = false ∧
    cleanText "a\n\n\n\nb" = "a\n\nb" := by
  refine ⟨?_, ?_, ?_, ?_, ?_⟩
  · show String.mk (cleanTextL (cleanTextL s.data)) = String.mk (cleanTextL s.data)
    rw [cleanTextL_idem]
  · exact contains_eq_false_of_not_mem (not_mem_cr_cleanTextL s.data)
  · show String.mk (trimSpaceL (cleanTextL s.data)) = String.mk (cleanTextL s.data)
    rw [trimSpaceL_eq_self (headNS_cleanTextL s.data) (lastNS_cleanTextL s.data)]
  · rw [← hasTripleNl_eq_containsSubstr]
    exact hasTripleNl_cleanTextL s.data
  · show String.mk (collapseLoop (trimSpaceL (removeCR "a\n\n\n\nb".data))) = _
    rw [show trimSpaceL (removeCR "a\n\n\n\nb".data) = "a\n\n\n\nb".data from rfl]
    rw [collapseLoop_eq, if_pos (by decide)]
    rw [show collapseOnce "a\n\n\n\nb".data = "a\n\n\nb".data from by decide]
    rw [collapseLoop_eq, if_pos (by decide)]
    rw [show collapseOnce "a\n\n\nb".data = "a\n\nb".data from by decide]
    rw [collapseLoop_eq, if_neg (by decide)]

/-- C4: the end-to-end scenario: og:title "Hi", no author, and the two
article paragraphs joined by a blank line. -/
theorem spec_C4 :
    extractFromDoc docC4 =
      .ok ⟨"Hi", "", "Hello world.\n\nSecond paragraph."⟩ := by
  have hmain : extractMainText docC4 = "Hello world.\n\nSecond paragraph." := by
    unfold extractMainText
    rw [show selectRaw docC4 = "Hello world.\n\nSecond paragraph." from by decide]
    exact cleanText_eq_self (by decide) (by decide) (by decide)
  rw [extractFromDoc_eq, hmain, if_neg (by decide),
    show extractTitle docC4 = "Hi" from by decide,
    show extractAuthor docC4 = "" from by decide]

/-- C1: parsing succeeded; the orchestrator returns `NoContentDetected`
exactly when the normalised body trims to blank, and every successful
`Article` has content that trims to a non-empty string. -/
theorem spec_C1 (d : Doc) :
    (extractFromDoc d = .error .noContentDetected ↔
      trimSpace (extractMainText d) = "") ∧
    ∀ art, extractFromDoc d = .ok art → ¬ trimSpace art.content = "" := by
  constructor
  · rw [extractFromDoc_eq]
    by_cases h : trimSpace (extractMainText d) = "" <;> simp [h]
  · intro art hart
    rw [extractFromDoc_eq] at hart
    by_cases h : trimSpace (extractMainText d) = ""
    · rw [if_pos h] at hart
      exact absurd hart (by simp)
    · rw [if_neg h] at hart
      injection hart with h2
      rw [← h2]
      exact h

/-- Witness for C1 at a concrete successful extraction. -/
theorem spec_C1_witness :
    ¬ trimSpace (Article.mk "T" "" "Body text.").content = "" := by
  have hmain : extractMainText docC1w = "Body text." := by
    unfold extractMainText
    rw [show selectRaw docC1w = "Body text." from by decide]
    exact cleanText_eq_self (by decide) (by decide) (by decide)
  have hdoc : extractFromDoc docC1w = .ok ⟨"T", "", "Body text."⟩ := by
    rw [extractFromDoc_eq, hmain, if_neg (by decide),
      show extractTitle docC1w = "T" from by decide,
      show extractAuthor docC1w = "" from by decide]
  exact (spec_C1 docC1w).2 ⟨"T", "", "Body text."⟩ hdoc

/-- C2 counterexample: a `<section id="content">` holding the longest prose is
not a candidate for the code (its third/fourth tiers match only `div`
elements), so the short `<article>` text wins; under the spec's any-element
tier the section text would win. -/
theorem spec_C2_counterexample :
    extractMainText docC2cx = "B." ∧
    extractMainTextSpec docC2cx = "This section is the real article body." ∧
    tagAt docC2cx [0, 1, 0] = some "section" ∧
    attrAt docC2cx [0, 1, 0] "id" = some "content" ∧
    find docC2cx selDivIdContent = [] ∧
    find docC2cx selAnyIdContent = [[0, 1, 0]] := by
  refine ⟨?_, ?_, by decide, by decide, by decide, by decide⟩
  · unfold extractMainText
    rw [show selectRaw docC2cx = "B." from by decide]
    exact cleanText_eq_self (by decide) (by decide) (by decide)
  · unfold extractMainTextSpec
    rw [show selectRawSpec docC2cx = "This section is the real article body." from by
      decide]
    exact cleanText_eq_self (by decide) (by decide) (by decide)

/-- C2 amended: the third and fourth tiers of the candidate list are
`div[id*='content']` and `div[class*='content']`: they match exactly the `div`
elements (not elements of arbitrary tag) whose `id` resp. `class` attribute
contains the substring `content`, and every such div is evaluated as a
candidate. -/
theorem spec_C2_amended (d : Doc) (p : Path) :
    (p ∈ find d selDivIdContent ↔
      tagAt d p = some "div" ∧
        ∃ a, attrAt d p "id" = some a ∧ containsSubstr a.data "content".data = true) ∧
    (p ∈ find d selDivClassContent ↔
      tagAt d p = some "div" ∧
        ∃ a, attrAt d p "class" = some a ∧ containsSubstr a.data "content".data = true) ∧
    candidateSels[2]? = some selDivIdContent ∧
    candidateSels[3]? = some selDivClassContent :=
  ⟨mem_find_tagContains d p "div" "id" "content",
   mem_find_tagContains d p "div" "class" "content", rfl, rfl⟩

/-- C3: among matched fixed-list candidates the maximal trimmed length wins
with first-wins ties (strict `>`); the per-div fallback runs only when every
candidate text trims to blank and picks the first div of maximal trimmed
length; the whole-document gather runs only when the divs are blank too. -/
theorem spec_C3 (d : Doc) :
    extractMainText d =
      cleanText
        (if (candTexts d).all (fun t => tlen t == 0) then
          (if (divTexts d).all (fun t => tlen t == 0) then gatherTextDoc d
           else firstMaxText (divTexts d))
         else firstMaxText (candTexts d)) := by
  unfold extractMainText
  rw [selectRaw_eq]

/-- C5 counterexample: with two `<title>` elements (and no `og:title`) the
code returns the concatenated text of all of them, not the first one's. -/
theorem spec_C5_counterexample :
    extractTitle docC5cx = "AB" ∧
    trimSpace (firstText docC5cx selTitle) = "A" ∧
    ("AB" : String) ≠ "A" := ⟨by decide, by decide, by decide⟩

/-- C5 amended: the trimmed `og:title` meta content when non-blank, otherwise
the trimmed concatenated text of all `<title>` elements (goquery's `.Text()`
concatenates every match), otherwise empty; `og:title` wins when both are
present. -/
theorem spec_C5_amended (d : Doc) :
    extractTitle d =
      (if trimSpace (attrOr d selOgTitle "content" "") = "" then
        trimSpace (selectionText d (find d selTitle))
      else trimSpace (attrOr d selOgTitle "content" "")) ∧
    extractTitle docC5b = "X" := by
  refine ⟨?_, by decide⟩
  unfold extractTitle
  by_cases h : trimSpace (attrOr d selOgTitle "content" "") = ""
  · rw [if_pos h]
    simp only [h, ne_eq, not_true_eq_false, if_false]
    by_cases h2 : trimSpace (selectionText d (find d selTitle)) = ""
    · simp [h2]
    · simp [h2]
  · rw [if_neg h]
    simp [h]

/-- C6: author priority: trimmed `meta[name="author"]` content when non-blank,
else the first non-blank among the first matches of `.author`, `.byline`,
`[rel=author]` in that order, else empty; the byline and the empty scenarios. -/
theorem spec_C6 (d : Doc) :
    extractAuthor d =
      firstNonBlank
        [trimSpace (attrOr d selMetaAuthor "content" ""),
         trimSpace (firstText d selAuthorClass),
         trimSpace (firstText d selByline),
         trimSpace (firstText d selRelAuthor)] ∧
    extractAuthor docC6jane = "Jane Doe" ∧
    extractAuthor docC6none = "" :=
  ⟨rfl, by decide, by decide⟩

/-- C8: substring matching on the literal class value: every `div` whose
`class` attribute is the literal `"noncontent"` is matched by the
`div[class*='content']` candidate tier. -/
theorem spec_C8 (d : Doc) (p : Path) (h1 : tagAt d p = some "div")
    (h2 : attrAt d p "class" = some "noncontent") :
    p ∈ find d selDivClassContent :=
  (mem_find_tagContains d p "div" "class" "content").mpr
    ⟨h1, "noncontent", h2, by decide⟩

/-- Witness for C8: the `noncontent` div is matched, and its text is what the
extractor returns. -/
theorem spec_C8_witness :
    [0, 1, 0] ∈ find docC8ex selDivClassContent ∧
    extractMainText docC8ex = "Some text here." := by
  refine ⟨spec_C8 docC8ex [0, 1, 0] (by decide) (by decide), ?_⟩
  unfold extractMainText
  rw [show selectRaw docC8ex = "Some text here." from by decide]
  exact cleanText_eq_self (by decide) (by decide) (by decide)

/-! ## Rate limiting -/

theorem runCalls_eq_count (K : String) :
    ∀ (L : List String) (st : RateState),
      runCalls L st K = st K + trueCountFor K L st := by
  intro L
  induction L with
  | nil => intro st; simp [runCalls, trueCountFor]
  | cons k ks ih =>
    intro st
    rw [show runCalls (k :: ks) st = runCalls ks (checkRateLimit k st).2 from rfl]
    rw [show trueCountFor K (k :: ks) st =
      (if (checkRateLimit k st).1 = true ∧ rateKey k = K then 1 else 0) +
        trueCountFor K ks (checkRateLimit k st).2 from rfl]
    rw [ih]
    have hstep : (checkRateLimit k st).2 K =
        st K + (if (checkRateLimit k st).1 = true ∧ rateKey k = K then 1 else 0) := by
      unfold checkRateLimit
      by_cases h : st (rateKey k) ≥ maxFreeRequestsPerHour
      · rw [if_pos h]
        simp
      · rw [if_neg h]
        by_cases hk : rateKey k = K
        · rw [← hk]
          simp
        · have hk2 : ¬ K = rateKey k := fun he => hk he.symm
          simp [hk, hk2]
    omega

theorem checkRateLimit_preserve {st : RateState}
    (hst : ∀ x, st x ≤ maxFreeRequestsPerHour) (k : String) :
    ∀ x, (checkRateLimit k st).2 x ≤ maxFreeRequestsPerHour := by
  intro x
  unfold checkRateLimit
  by_cases h : st (rateKey k) ≥ maxFreeRequestsPerHour
  · rw [if_pos h]
    exact hst x
  · rw [if_neg h]
    show (if x = rateKey k then st (rateKey k) + 1 else st x) ≤ maxFreeRequestsPerHour
    by_cases hx : x = rateKey k
    · rw [if_pos hx]
      unfold maxFreeRequestsPerHour at h ⊢
      omega
    · rw [if_neg hx]
      exact hst x

theorem runCalls_le :
    ∀ (L : List String) (st : RateState),
      (∀ x, st x ≤ maxFreeRequestsPerHour) →
      ∀ x, runCalls L st x ≤ maxFreeRequestsPerHour := by
  intro L
  induction L with
  | nil => intro st hst x; exact hst x
  | cons k ks ih =>
    intro st hst x
    exact ih (checkRateLimit k st).2 (checkRateLimit_preserve hst k) x

/-- C9: `checkRateLimit` refuses and leaves the state unchanged exactly when
the effective key's counter has reached the quota, otherwise increments that
counter only and accepts; the counters never exceed the quota; the empty key
is counted under `"anon"`; and any call sequence from the empty state gets at
most 100 `true` answers per effective key. -/
theorem spec_C9 (k : String) (st : RateState) (L : List String) (K : String) :
    (((checkRateLimit k st).1 = false ∧ (checkRateLimit k st).2 = st) ↔
      maxFreeRequestsPerHour ≤ st (rateKey k)) ∧
    (st (rateKey k) < maxFreeRequestsPerHour →
      (checkRateLimit k st).1 = true ∧
      (checkRateLimit k st).2 (rateKey k) = st (rateKey k) + 1 ∧
      ∀ x, x ≠ rateKey k → (checkRateLimit k st).2 x = st x) ∧
    ((∀ x, st x ≤ maxFreeRequestsPerHour) →
      ∀ x, (checkRateLimit k st).2 x ≤ maxFreeRequestsPerHour) ∧
    checkRateLimit "" st = checkRateLimit "anon" st ∧
    trueCountFor K L (fun _ => 0) ≤ maxFreeRequestsPerHour := by
  refine ⟨?_, ?_, fun hst => checkRateLimit_preserve hst k, rfl, ?_⟩
  · by_cases h : st (rateKey k) ≥ maxFreeRequestsPerHour
    · have heq : checkRateLimit k st = (false, st) := by
        unfold checkRateLimit
        rw [if_pos h]
      rw [heq]
      exact ⟨fun _ => h, fun _ => ⟨rfl, rfl⟩⟩
    · have heq : checkRateLimit k st =
          (true, fun x => if x = rateKey k then st (rateKey k) + 1 else st x) := by
        unfold checkRateLimit
        rw [if_neg h]
      rw [heq]
      constructor
      · rintro ⟨h1, -⟩
        exact absurd h1 (by simp)
      · intro hge
        exact absurd hge h
  · intro hlt
    have h : ¬ st (rateKey k) ≥ maxFreeRequestsPerHour := by omega
    have heq : checkRateLimit k st =
        (true, fun x => if x = rateKey k then st (rateKey k) + 1 else st x) := by
      unfold checkRateLimit
      rw [if_neg h]
    rw [heq]
    refine ⟨rfl, by simp, fun x hx => by simp [hx]⟩
  · have h0 : ∀ x, (fun _ => 0 : RateState) x ≤ maxFreeRequestsPerHour :=
      fun _ => Nat.zero_le _
    have h1 := runCalls_eq_count K L (fun _ => 0)
    have h2 := runCalls_le L (fun _ => 0) h0 K
    omega

/-- Witness for C9 at a concrete key, state and call sequence. -/
theorem spec_C9_witness :
    (checkRateLimit "k1" (fun _ => 0)).1 = true ∧
    (checkRateLimit "k1" (fun _ => 0)).2 "k1" = 1 ∧
    (checkRateLimit "k1" (fun _ => 0)).2 "other" ≤ maxFreeRequestsPerHour ∧
    trueCountFor "a" ["a", "b", "a"] (fun _ => 0) ≤ maxFreeRequestsPerHour := by
  obtain ⟨-, h2, h3, -, h5⟩ := spec_C9 "k1" (fun _ => 0) ["a", "b", "a"] "a"
  obtain ⟨hb, hinc, -⟩ := h2 (by decide)
  exact ⟨hb, hinc, h3 (fun x => Nat.zero_le _) "other", h5⟩

/-- C10: `checkKey` accepts exactly the empty key and the configured keys, so
a request with neither header nor query key is never rejected with 401; it is
rate limited under the shared `"anon"` key instead. -/
theorem spec_C10 (k url : String) (st : RateState) (f : String → Except Unit Doc) :
    (checkKey k = true ↔ (k = "" ∨ k ∈ validKeys)) ∧
    (extractHandler "" "" url st f).1 ≠ HandlerResult.unauthorized ∧
    ((extractHandler "" "" url st f).1 = HandlerResult.rateLimited ↔
      maxFreeRequestsPerHour ≤ st "anon") := by
  refine ⟨?_, ?_, ?_⟩
  · unfold checkKey validKeys
    by_cases hk : k = "" <;> simp [hk]
  · rw [extractHandler_anon]
    by_cases hr : (checkRateLimit "" st).1 = false
    · rw [if_pos hr]
      simp
    · rw [if_neg hr]
      by_cases hu : url = ""
      · rw [if_pos hu]
        simp
      · rw [if_neg hu]
        cases fetchAndExtract url f <;> simp
  · rw [extractHandler_anon]
    by_cases hr : (checkRateLimit "" st).1 = false
    · rw [if_pos hr]
      simp only [true_iff]
      exact (checkRateLimit_false_iff "" st).mp hr
    · rw [if_neg hr]
      have hlt : ¬ maxFreeRequestsPerHour ≤ st "anon" := by
        intro hge
        exact hr ((checkRateLimit_false_iff "" st).mpr hge)
      by_cases hu : url = ""
      · rw [if_pos hu]
        simp [hlt]
      · rw [if_neg hu]
        cases fetchAndExtract url f <;> simp [hlt]

/-- Witness for C10 at a concrete request with no key at all. -/
theorem spec_C10_witness :
    (extractHandler "" "" "example.com" (fun _ => 0)
      (fun _ => Except.error ())).1 ≠ HandlerResult.unauthorized :=
  (spec_C10 "demo-key-123" "example.com" (fun _ => 0) (fun _ => Except.error ())).2.1

end CleanWebArticle
